import Mathlib

/-!
Verification of the Afisha movie-calendar scraper (src/scraper.py).

The development embeds the scraper's pure logic in Lean:

* the HTTP fetch loop `get_soup` (scraper.py lines 100-170) runs over an
  explicit trace of per-attempt transport outcomes; the randomized politeness
  delays (`smart_delay`) are outside the model, while each deterministic
  `time.sleep` inside the retry loop is recorded in `FetchResult.sleeps`;
* the listing extractor (lines 321-431), the time normalizer (lines 268-277
  and 396-407), the pagination/merge loop (lines 433-491), the calendar-widget
  date parser (lines 172-247), the event materializer (lines 534-594) and the
  orchestration of `main` (lines 596-698) are embedded as pure functions whose
  inputs stand for the results delivered by the HTML/HTTP collaborators
  (selector hits, regex matches, fetched pages);
* machine dates are represented by proleptic-Gregorian ordinal day numbers
  (the same order as Python `datetime.date` comparison) and datetimes by
  minutes `day * 1440 + hour * 60 + minute`, so `timedelta(hours=2)` is `+ 120`;
* relative-URL resolution (`urljoin`) is a collaborator and is modelled as the
  identity on the href.
-/

namespace Afisha

/-- Lexicographic order on character lists by code point: exactly Python's
`str` comparison, which the scraper relies on in `sorted(all_times)`
(scraper.py line 645). -/
def lexLt : List Char → List Char → Bool
  | [], [] => false
  | [], _ :: _ => true
  | _ :: _, [] => false
  | a :: as, b :: bs => if a < b then true else if b < a then false else lexLt as bs

/-- Python `<` on strings. -/
def strLt (a b : String) : Bool := lexLt a.data b.data

/-- `pat` occurs as a contiguous sublist of `l`. -/
def subAt (pat l : List Char) : Bool := l.tails.any (fun t => List.isPrefixOf pat t)

/-- Python's substring test `pat in s`, used for `'movie' in link['href']`
(line 355) and the month-name tests on `aria-label` (lines 211-219). -/
def strContains (s pat : String) : Bool := subAt pat.data s.data

/-- Split a character list at `':'`; single-character analogue of
`str.split(':')` as `strptime('%H:%M')` sees the time string. -/
def splitOnColon : List Char → List (List Char)
  | [] => [[]]
  | c :: rest =>
    let r := splitOnColon rest
    if c = ':' then [] :: r
    else
      match r with
      | [] => [[c]]
      | h :: t => (c :: h) :: t

/-- Numeric value of a list of decimal digit characters. -/
def digitsVal (l : List Char) : Nat := l.foldl (fun a c => a * 10 + (c.toNat - 48)) 0

def allDigits (l : List Char) : Bool := l.all Char.isDigit

/-- `match.replace('.', ':')` of lines 272, 292 and 402: every `'.'` becomes
`':'`. -/
def replaceDots (s : String) : String :=
  String.mk (s.data.map (fun c => if c = '.' then ':' else c))

/-- `datetime.strptime(s, '%H:%M')` as a validator: one or two digits, a
colon, one or two digits, hour at most 23, minute at most 59; `none` is the
`ValueError` branch. -/
def parseHM (s : String) : Option (Nat × Nat) :=
  match splitOnColon s.data with
  | [hs, ms] =>
    if 1 ≤ hs.length ∧ hs.length ≤ 2 ∧ allDigits hs ∧
        1 ≤ ms.length ∧ ms.length ≤ 2 ∧ allDigits ms then
      if digitsVal hs ≤ 23 ∧ digitsVal ms ≤ 59 then
        some (digitsVal hs, digitsVal ms)
      else none
    else none
  | _ => none

/-- Insert `x` into a list already sorted ascending by `lt`, before the first
element that is not below `x`. -/
def insertLt {α : Type} (lt : α → α → Bool) (x : α) : List α → List α
  | [] => [x]
  | y :: ys => if lt y x then y :: insertLt lt x ys else x :: y :: ys

/-- Ascending sort by the strict comparison `lt`; models Python's
`sorted`/`list.sort` (lines 241, 645), whose result on distinct elements is
the unique ascending enumeration. -/
def sortLt {α : Type} (lt : α → α → Bool) (l : List α) : List α :=
  l.foldr (insertLt lt) []

/-! ## Rate-limited fetcher (`get_soup`, scraper.py lines 100-170) -/

/-- `MAX_RETRIES` (line 31). -/
def MAX_RETRIES : Nat := 3

/-- `BACKOFF_FACTOR` (line 32). -/
def BACKOFF_FACTOR : Nat := 3

/-- `BASE_DELAY` (line 33). -/
def BASE_DELAY : Nat := 5

/-- Outcome of one `session.get` attempt: a 2xx response carrying a parsed
document (identified by a number), one of the specially handled statuses 429,
404 and 403, or the shared transport-error path (timeout, connection error,
and any other status raised by `raise_for_status`). -/
inductive Resp where
  | ok (d : Nat)
  | s429
  | s404
  | s403
  | err
deriving DecidableEq, Repr

/-- What one `get_soup` call did: the returned value (`none` is Python
`None`), how many HTTP requests were issued, and the deterministic
`time.sleep` waits performed inside the attempt loop, in order. -/
structure FetchResult where
  doc : Option Nat
  requests : Nat
  sleeps : List Nat
deriving DecidableEq, Repr

/-- The attempt loop of `get_soup` (lines 122-170) over a trace of per-attempt
responses. `left` counts the attempts still allowed including the current one,
`delay` is the mutable `delay` variable initialised to `BASE_DELAY`:
429 sleeps `delay * BACKOFF_FACTOR` then multiplies `delay` by
`BACKOFF_FACTOR` and continues (lines 133-138); 404 returns `None` at once
(lines 139-141); 403 sleeps `delay * 2`, doubles `delay` and continues
(lines 142-146); a transport error sleeps `delay` and multiplies it by
`BACKOFF_FACTOR` unless this was the final attempt, in which case `None` is
returned (lines 156-170). -/
def getSoupLoop : List Resp → Nat → Nat → FetchResult
  | _, 0, _ => ⟨none, 0, []⟩
  | [], _ + 1, _ => ⟨none, 0, []⟩
  | r :: rest, left + 1, delay =>
    match r with
    | .ok d => ⟨some d, 1, []⟩
    | .s429 =>
      let f := getSoupLoop rest left (delay * BACKOFF_FACTOR)
      ⟨f.doc, f.requests + 1, delay * BACKOFF_FACTOR :: f.sleeps⟩
    | .s404 => ⟨none, 1, []⟩
    | .s403 =>
      let f := getSoupLoop rest left (delay * 2)
      ⟨f.doc, f.requests + 1, delay * 2 :: f.sleeps⟩
    | .err =>
      if left = 0 then ⟨none, 1, []⟩
      else
        let f := getSoupLoop rest left (delay * BACKOFF_FACTOR)
        ⟨f.doc, f.requests + 1, delay :: f.sleeps⟩

/-- `get_soup(url, retries)` (line 100) driven by the trace of transport
outcomes. -/
def get_soup (trace : List Resp) (retries : Nat) : FetchResult :=
  getSoupLoop trace retries BASE_DELAY

/-! ## Data model -/

/-- The `movie_data` dict built at lines 360-366 and 415-421. `nearest` is an
ordinal day number (see `toOrdinal`). -/
structure Movie where
  title : String
  url : Option String
  times : List String
  countries : List String
  nearest : Option Nat
deriving DecidableEq, Repr

/-- An `<a href=...>` element as the link-scanning fallback sees it
(lines 354-358): its href and its stripped visible text. -/
structure Link where
  href : String
  text : String
deriving DecidableEq, Repr

/-- One matched movie container (lines 373-424) as the extractor probes it:
the stripped text produced by `select_one` for each of the seven title
sub-selectors `['h1','h2','h3','.title','.name','a','strong']` in order
(`none` where the selector matches nothing), the stream of time-pattern regex
matches over the container's text, and the href of the first contained link. -/
structure Container where
  titleProbes : List (Option String)
  timeMatches : List String
  firstLink : Option String
deriving DecidableEq, Repr

/-- One listing-page document: per container-selector the list of matched
containers (in the order of `movie_selectors`, lines 328-342), and all
hyperlink elements for the fallback path. -/
structure ListingDoc where
  containerHits : List (List Container)
  links : List Link
deriving DecidableEq, Repr

/-- An `ics` `Event` as the scraper fills it: name, begin and end in minutes
(`day * 1440 + hour * 60 + minute`), and the source URL. -/
structure Event where
  name : String
  beginT : Nat
  endT : Nat
  url : Option String
deriving DecidableEq, Repr

/-- An active calendar-date link (`a.pdT6c`, line 198): its `aria-label` and
the stripped text of its `.YCVqY` day element when that element exists. -/
structure DateLink where
  ariaLabel : String
  day : Option String
deriving DecidableEq, Repr

/-! ## Listing extractor (`extract_movie_data_from_schedule`, lines 321-431) -/

/-- The title probe loop of lines 376-384: each matching sub-selector
overwrites `title`; the loop stops early only when the found text is non-empty
with length over 3, so the last match is kept otherwise. -/
def probeTitle : List (Option String) → Option String → Option String
  | [], acc => acc
  | none :: rest, acc => probeTitle rest acc
  | some t :: rest, _acc =>
    if t ≠ "" ∧ t.length > 3 then some t else probeTitle rest (some t)

/-- One step of the time-collection loops (lines 270-277 and 400-407):
normalize `'.'` to `':'`, validate with `strptime('%H:%M')`, and append unless
already present. -/
def addTimeMatch (acc : List String) (m : String) : List String :=
  match parseHM (replaceDots m) with
  | some _ => if replaceDots m ∈ acc then acc else acc ++ [replaceDots m]
  | none => acc

/-- The times produced from a stream of time-shaped regex matches: the
normalize/validate/dedupe loop of lines 268-277 (`parse_showtimes_from_page`,
selector path) and 396-407 (`extract_movie_data_from_schedule`). -/
def collectTimes (ms : List String) : List String :=
  ms.foldl addTimeMatch []

/-- Lines 373-423 for one container: probe the title; `if not title: continue`
(line 386) drops the container only when no probe matched or the kept text is
empty; otherwise build the movie record. -/
def containerMovie (el : Container) : Option Movie :=
  match probeTitle el.titleProbes none with
  | none => none
  | some t =>
    if t = "" then none
    else some { title := t, url := el.firstLink, times := collectTimes el.timeMatches,
                countries := [], nearest := none }

/-- Lines 357-367 for one fallback link: keep it when its text is non-empty
with length over 3. -/
def linkMovie (l : Link) : Option Movie :=
  if l.text ≠ "" ∧ l.text.length > 3 then
    some { title := l.text, url := some l.href, times := [], countries := [], nearest := none }
  else none

/-- First container selector with at least one match wins (lines 344-350). -/
def firstHit : List (List Container) → Option (List Container)
  | [] => none
  | [] :: rest => firstHit rest
  | (e :: es) :: _ => some (e :: es)

/-- `extract_movie_data_from_schedule` (lines 321-431): the container path
when some selector matched, otherwise the link-scanning fallback filtered by
`'movie' in href or 'film' in href` (line 355). -/
def extract_movie_data_from_schedule (doc : ListingDoc) : List Movie :=
  match firstHit doc.containerHits with
  | some els => els.filterMap containerMovie
  | none =>
    (doc.links.filter (fun l => strContains l.href "movie" || strContains l.href "film")).filterMap
      linkMovie

/-! ## Calendar-widget date parsing (`parse_schedule_calendar`, lines 172-247) -/

def isLeap (y : Nat) : Bool := (y % 4 == 0 && y % 100 != 0) || y % 400 == 0

def daysInMonth (y m : Nat) : Nat :=
  if m = 2 then (if isLeap y then 29 else 28)
  else if m = 4 ∨ m = 6 ∨ m = 9 ∨ m = 11 then 30
  else 31

def daysBeforeYear (y : Nat) : Nat :=
  (y - 1) * 365 + (y - 1) / 4 - (y - 1) / 100 + (y - 1) / 400

def daysBeforeMonth (y m : Nat) : Nat :=
  ((List.range (m - 1)).map (fun i => daysInMonth y (i + 1))).sum

/-- Proleptic-Gregorian ordinal of a calendar day, as Python
`date.toordinal()`: comparison of ordinals is exactly chronological comparison
of `date` objects. -/
def toOrdinal (y m d : Nat) : Nat := daysBeforeYear y + daysBeforeMonth y m + d

/-- The `date(year, month, day)` constructor of line 228: `none` is the
`ValueError` caught at line 231 (invalid month or day-of-month). -/
def date (y m d : Nat) : Option Nat :=
  if 1 ≤ m ∧ m ≤ 12 ∧ 1 ≤ d ∧ d ≤ daysInMonth y m then some (toOrdinal y m d) else none

/-- Python `int(text)` restricted as the day-number parse of line 228 needs
it; `none` is the `ValueError` branch. -/
def parseIntOpt (s : String) : Option Nat :=
  if s.data ≠ [] ∧ allDigits s.data then some (digitsVal s.data) else none

/-- Month/year inference from the link's `aria-label` (lines 211-224): the
three hardcoded month names map to fixed month numbers with year 2025, and
anything else falls back to the current month and year. -/
def monthYear (nowY nowM : Nat) (aria : String) : Nat × Nat :=
  if strContains aria "октября" then (10, 2025)
  else if strContains aria "ноября" then (11, 2025)
  else if strContains aria "декабря" then (12, 2025)
  else (nowM, nowY)

/-- Lines 200-237 for one active date link: a day element must exist, its text
must parse as an integer, and the `date` construction must succeed; any
failure skips the entry. -/
def linkDate (nowY nowM : Nat) (link : DateLink) : Option Nat :=
  match link.day with
  | none => none
  | some dayText =>
    match parseIntOpt dayText with
    | none => none
    | some d =>
      let my := monthYear nowY nowM link.ariaLabel
      date my.2 my.1 d

/-- `parse_schedule_calendar` (lines 172-247): `none` when no calendar widget
was found; otherwise collect one valid date per active link, sort ascending
and return the earliest, or `none` when no valid date was constructed. -/
def parse_schedule_calendar (nowY nowM : Nat) (widget : Option (List DateLink)) : Option Nat :=
  match widget with
  | none => none
  | some links => (sortLt Nat.blt (links.filterMap (linkDate nowY nowM))).head?

/-! ## Pagination controller (`parse_all_schedule_pages`, lines 433-491) -/

/-- One merge step of lines 468-472: append the movie unless its title is
already in the accumulated collection (`existing_titles` always holds exactly
the titles of `all_movies_data`). -/
def insertNew (acc : List Movie) (m : Movie) : List Movie :=
  if acc.any (fun x => x.title == m.title) then acc else acc ++ [m]

/-- Merging one page's movies into the run-wide collection (lines 464-472). -/
def mergePage (acc : List Movie) (page : List Movie) : List Movie :=
  page.foldl insertNew acc

/-- The run-wide collection produced by merging a stream of movies into an
empty collection. -/
def dedupF (l : List Movie) : List Movie := l.foldl insertNew []

/-- `if MAX_MOVIES and len(all_movies_data) >= MAX_MOVIES` (line 476): Python
truthiness makes `None` and `0` both skip the cap. -/
def truncCond : Option Nat → Nat → Bool
  | none, _ => false
  | some mm, len => mm != 0 && mm ≤ len

/-- What a pagination run did: the final collection and the listing pages
fetched, in order. -/
structure RunState where
  movies : List Movie
  fetched : List Nat
deriving DecidableEq, Repr

/-- The `while current_page <= MAX_PAGES` loop of lines 442-488. `pages p` is
the fetched-and-extracted content of listing page `p` (`none` when the fetch
returned `None`); `probe p` is `check_next_page_exists` for page `p + 1`.
Stop on fetch failure (line 452), on zero extracted movies (line 458), on the
item cap with truncation (lines 476-479), or on a negative next-page probe
when pages remain (lines 481-485); otherwise advance. `fuel` is the number of
page iterations the `current_page <= MAX_PAGES` guard still allows. -/
def collectLoop (pages : Nat → Option (List Movie)) (probe : Nat → Bool)
    (maxMovies : Option Nat) (maxPages : Nat) :
    Nat → Nat → List Movie → RunState
  | 0, _, acc => ⟨acc, []⟩
  | fuel + 1, currentPage, acc =>
    match pages currentPage with
    | none => ⟨acc, [currentPage]⟩
    | some [] => ⟨acc, [currentPage]⟩
    | some (m :: rest) =>
      let acc2 := mergePage acc (m :: rest)
      if truncCond maxMovies acc2.length then
        ⟨acc2.take (maxMovies.getD 0), [currentPage]⟩
      else if currentPage < maxPages ∧ probe currentPage = false then ⟨acc2, [currentPage]⟩
      else
        let r := collectLoop pages probe maxMovies maxPages fuel (currentPage + 1) acc2
        ⟨r.movies, currentPage :: r.fetched⟩

/-- `parse_all_schedule_pages` (lines 433-491): pages are numbered from 1 and
at most `maxPages` of them are visited. -/
def parse_all_schedule_pages (pages : Nat → Option (List Movie)) (probe : Nat → Bool)
    (maxMovies : Option Nat) (maxPages : Nat) : RunState :=
  collectLoop pages probe maxMovies maxPages maxPages 1 []

/-- The stream of movies extracted from a list of fetched pages, in order. -/
def fetchedExtracts (pages : Nat → Option (List Movie)) (f : List Nat) : List Movie :=
  (f.map (fun p => (pages p).getD [])).flatten

/-! ## Detail enrichment merge and event materialization (lines 534-594 and 630-656) -/

/-- `sorted(list(set(times + detailed_times)))` of lines 644-645: the
duplicate-free union, enumerated ascending by Python string comparison. -/
def mergeDetailTimes (times detailed : List String) : List String :=
  sortLt strLt ((times ++ detailed).dedup)

/-- The per-movie enrichment step of `main` (lines 635-650): with details
enabled and a (truthy) URL, install the enricher's countries and nearest date,
and when it returned any extra showtimes replace `times` by the sorted union;
otherwise clear countries and nearest date. -/
def processMovie (skipDetails : Bool)
    (enrich : String → List String × Option Nat × List String) (m : Movie) : Movie :=
  match m.url with
  | some u =>
    if skipDetails then { m with countries := [], nearest := none }
    else
      let e := enrich u
      let m2 := { m with countries := e.1, nearest := e.2.1 }
      if e.2.2 ≠ [] then { m2 with times := mergeDetailTimes m2.times e.2.2 } else m2
  | none => { m with countries := [], nearest := none }

/-- `create_calendar_event` (lines 534-594): `none` when a country is in the
exclusion list; the event date is the nearest show date, else tomorrow
relative to `today` (an ordinal day); the time is `times[0]` when it parses,
else 19:00; the end is the begin plus two hours. -/
def create_calendar_event (excl : List String) (today : Nat) (m : Movie) : Option Event :=
  if m.countries.any (fun c => excl.contains c) then none
  else
    let eventDate := match m.nearest with
      | some d => d
      | none => today + 1
    let eventMinutes := match m.times with
      | [] => 19 * 60
      | t :: _ =>
        match parseHM t with
        | some hm => hm.1 * 60 + hm.2
        | none => 19 * 60
    some { name := m.title, beginT := eventDate * 1440 + eventMinutes,
           endT := eventDate * 1440 + eventMinutes + 120, url := m.url }

/-- What one run of `main` leaves behind: the events written to
`calendar.ics` and whether the caught run-level failure was re-raised. -/
structure RunOutput where
  events : List Event
  reraised : Bool
deriving DecidableEq, Repr

/-- `main` after the collection phase (lines 609-698): a run-level exception
yields one error placeholder event at `now + 1 day` and re-raises after the
file is written (lines 685-698); zero collected movies yield one "no movies"
placeholder event at `now + 1 day` (lines 613-621); otherwise each movie is
enriched, materialized and added when not excluded (lines 630-656). `now` is
the wall clock in minutes. -/
def mainRun (now : Nat) (skipDetails : Bool) (excl : List String)
    (enrich : String → List String × Option Nat × List String)
    (collected : Except Unit (List Movie)) : RunOutput :=
  match collected with
  | Except.error _ =>
    ⟨[{ name := "Ошибка парсинга", beginT := now + 1440, endT := now + 1440 + 120,
        url := none }], true⟩
  | Except.ok movies =>
    if movies.isEmpty then
      ⟨[{ name := "Фильмы не найдены", beginT := now + 1440, endT := now + 1440 + 120,
          url := none }], false⟩
    else
      ⟨movies.foldl (fun acc m =>
          match create_calendar_event excl (now / 1440) (processMovie skipDetails enrich m) with
          | some e => acc ++ [e]
          | none => acc) [], false⟩

/-! ## Concrete inputs used by witnesses and counterexamples -/

/-- A listing document whose single container (matched by the first selector)
answers only the final `strong` title probe, with a three-character text. -/
def shortTitleDoc : ListingDoc :=
  { containerHits := [[{ titleProbes := [none, none, none, none, none, none, some "Kit"],
                         timeMatches := [], firstLink := none }]],
    links := [] }

def movieA : Movie :=
  { title := "Alpha Movie", url := none, times := [], countries := [], nearest := none }

def movieB : Movie :=
  { title := "Bravo Movie", url := none, times := [], countries := [], nearest := none }

/-- Two listing pages with one fresh title each, nothing after them. -/
def twoPages : Nat → Option (List Movie) :=
  fun p => if p = 1 then some [movieA] else if p = 2 then some [movieB] else none

/-- Pages for the cap example: page 1 brings four unique titles, page 2 brings
four more (eight across the run). -/
def capPages : Nat → Option (List Movie) :=
  fun p =>
    if p = 1 then
      some [{ movieA with title := "Movie One" }, { movieA with title := "Movie Two" },
            { movieA with title := "Movie Three" }, { movieA with title := "Movie Four" }]
    else if p = 2 then
      some [{ movieA with title := "Movie Five" }, { movieA with title := "Movie Six" },
            { movieA with title := "Movie Seven" }, { movieA with title := "Movie Eight" }]
    else none

/-- An enricher answering every detail URL with no countries, no nearest date
and the single extra showtime "10:00". -/
def enrichTen : String → List String × Option Nat × List String :=
  fun _ => ([], none, ["10:00"])

/-- A movie whose listing gave the single showtime "9:30". -/
def movieNineThirty : Movie :=
  { title := "Some Film", url := some "detail-url", times := ["9:30"], countries := [],
    nearest := none }

/-- A movie with no nearest show date, no showtimes and a country outside the
default exclusion list. -/
def fallbackMovie : Movie :=
  { title := "Plain Film", url := none, times := [], countries := ["США"], nearest := none }

/-! ## Fetcher theorems (claims C1, C4) -/

theorem getSoupLoop_replicate_s429 (n : Nat) : ∀ d : Nat,
    getSoupLoop (List.replicate n Resp.s429) n d =
      ⟨none, n, (List.range n).map (fun i => d * BACKOFF_FACTOR ^ (i + 1))⟩ := by
  induction n with
  | zero => intro d; rfl
  | succ k ih =>
    intro d
    rw [List.replicate_succ]
    show (⟨(getSoupLoop (List.replicate k Resp.s429) k (d * BACKOFF_FACTOR)).doc,
           (getSoupLoop (List.replicate k Resp.s429) k (d * BACKOFF_FACTOR)).requests + 1,
           d * BACKOFF_FACTOR ::
             (getSoupLoop (List.replicate k Resp.s429) k (d * BACKOFF_FACTOR)).sleeps⟩ :
        FetchResult) = _
    rw [ih (d * BACKOFF_FACTOR)]
    simp only [FetchResult.mk.injEq, true_and, List.range_succ_eq_map, List.map_cons,
      List.map_map]
    have h0 : d * BACKOFF_FACTOR ^ (0 + 1) = d * BACKOFF_FACTOR := by ring
    have h1 : ((fun i => d * BACKOFF_FACTOR ^ (i + 1)) ∘ Nat.succ) =
        (fun i => d * BACKOFF_FACTOR * BACKOFF_FACTOR ^ (i + 1)) := by
      funext i
      show d * BACKOFF_FACTOR ^ (i + 1 + 1) = _
      ring
    rw [h0, h1]

theorem getSoupLoop_replicate_err_doc (n : Nat) : ∀ d : Nat,
    (getSoupLoop (List.replicate n Resp.err) n d).doc = none := by
  induction n with
  | zero => intro d; rfl
  | succ k ih =>
    intro d
    rw [List.replicate_succ]
    by_cases hk : k = 0
    · subst hk; rfl
    · show (if k = 0 then (⟨none, 1, []⟩ : FetchResult)
        else
          let f := getSoupLoop (List.replicate k Resp.err) k (d * BACKOFF_FACTOR)
          ⟨f.doc, f.requests + 1, d :: f.sleeps⟩).doc = none
      simp only [hk, if_false]
      exact ih (d * BACKOFF_FACTOR)

/-- C1: the claim says a fetch whose every attempt receives HTTP 429 does not
exhaust the attempt loop ("unlimited patience"). On the code, three straight
429 responses with `MAX_RETRIES = 3` consume all three attempts and the call
falls out of the loop returning the `None` failure result (after the waits
15, 45, 135 produced by the escalating backoff). -/
theorem c1_counterexample :
    get_soup [Resp.s429, Resp.s429, Resp.s429] MAX_RETRIES =
      { doc := none, requests := 3, sleeps := [15, 45, 135] } := by
  decide

/-- C1 (amended): every HTTP 429 response does wait `delay * BACKOFF_FACTOR`
seconds and then multiply the current delay by `BACKOFF_FACTOR` (so the waits
escalate geometrically from `BASE_DELAY * BACKOFF_FACTOR`), but each 429
consumes one attempt of the standard per-call budget: a fetch of `n` attempts
whose every attempt receives 429 issues exactly `n` requests, performs the
waits `BASE_DELAY * BACKOFF_FACTOR ^ (i + 1)` for `i < n`, and exhausts the
loop returning the `None` failure result. -/
theorem c1_429_consumes_attempt_budget (n : Nat) :
    get_soup (List.replicate n Resp.s429) n =
      { doc := none, requests := n,
        sleeps := (List.range n).map (fun i => BASE_DELAY * BACKOFF_FACTOR ^ (i + 1)) } :=
  getSoupLoop_replicate_s429 n BASE_DELAY

/-- C4: the claim says the value returned on HTTP 404 is a definitive-absence
result distinct from the null result of retry exhaustion. On the code both
are the same `None`: a 404 on the first attempt and three transport errors
yield identical return values. -/
theorem c4_counterexample :
    (get_soup [Resp.s404] MAX_RETRIES).doc = none ∧
    (get_soup [Resp.err, Resp.err, Resp.err] MAX_RETRIES).doc = none ∧
    (get_soup [Resp.s404] MAX_RETRIES).doc =
      (get_soup [Resp.err, Resp.err, Resp.err] MAX_RETRIES).doc := by
  decide

/-- C4 (amended): on HTTP 404 the fetch does return immediately — one request,
no waits, no further attempts — but the returned value is the plain `None`
also produced when the retry budget is exhausted by transient errors, not a
distinct NotFound result. -/
theorem c4_404_immediate_but_not_distinct (rest : List Resp) (k : Nat) :
    get_soup (Resp.s404 :: rest) (k + 1) = { doc := none, requests := 1, sleeps := [] } ∧
    (get_soup (Resp.s404 :: rest) (k + 1)).doc =
      (get_soup (List.replicate (k + 1) Resp.err) (k + 1)).doc := by
  refine ⟨rfl, ?_⟩
  rw [get_soup, get_soup, getSoupLoop_replicate_err_doc]
  rfl

/-! ## Time-normalization theorems (claim C3) -/

theorem addTimeMatch_valid (acc : List String) (m : String)
    (h : ∀ s ∈ acc, (parseHM s).isSome = true) :
    ∀ s ∈ addTimeMatch acc m, (parseHM s).isSome = true := by
  intro s hs
  unfold addTimeMatch at hs
  cases hp : parseHM (replaceDots m) with
  | none => rw [hp] at hs; exact h s hs
  | some v =>
    rw [hp] at hs
    by_cases hin : replaceDots m ∈ acc
    · simp only [if_pos hin] at hs
      exact h s hs
    · simp only [if_neg hin, List.mem_append, List.mem_singleton] at hs
      rcases hs with hs | hs
      · exact h s hs
      · rw [hs, hp]; rfl

theorem mem_addTimeMatch_of_mem (acc : List String) (m s : String) (h : s ∈ acc) :
    s ∈ addTimeMatch acc m := by
  unfold addTimeMatch
  cases parseHM (replaceDots m) with
  | none => exact h
  | some v =>
    by_cases hin : replaceDots m ∈ acc
    · simpa only [if_pos hin] using h
    · simp only [if_neg hin, List.mem_append]
      exact Or.inl h

theorem addTimeMatch_adds (acc : List String) (m : String)
    (h : (parseHM (replaceDots m)).isSome = true) :
    replaceDots m ∈ addTimeMatch acc m := by
  unfold addTimeMatch
  cases hp : parseHM (replaceDots m) with
  | none => rw [hp] at h; cases h
  | some v =>
    by_cases hin : replaceDots m ∈ acc
    · simpa only [if_pos hin] using hin
    · simp [if_neg hin]

theorem mem_foldl_addTimeMatch (l : List String) (acc : List String) (s : String)
    (h : s ∈ acc) : s ∈ l.foldl addTimeMatch acc := by
  induction l generalizing acc with
  | nil => exact h
  | cons x xs ih => exact ih (addTimeMatch acc x) (mem_addTimeMatch_of_mem acc x s h)

theorem collectTimes_all_valid (ms : List String) :
    ∀ s ∈ collectTimes ms, (parseHM s).isSome = true := by
  suffices h : ∀ (l acc : List String), (∀ s ∈ acc, (parseHM s).isSome = true) →
      ∀ s ∈ l.foldl addTimeMatch acc, (parseHM s).isSome = true by
    exact h ms [] (by simp)
  intro l
  induction l with
  | nil => intro acc hacc s hs; exact hacc s hs
  | cons x xs ih =>
    intro acc hacc s hs
    exact ih (addTimeMatch acc x) (addTimeMatch_valid acc x hacc) s hs

theorem collectTimes_mem (ms : List String) (m : String) (hm : m ∈ ms)
    (h : (parseHM (replaceDots m)).isSome = true) :
    replaceDots m ∈ collectTimes ms := by
  suffices hs : ∀ (l acc : List String), m ∈ l →
      replaceDots m ∈ l.foldl addTimeMatch acc by
    exact hs ms [] hm
  intro l
  induction l with
  | nil => intro acc hc; cases hc
  | cons x xs ih =>
    intro acc hc
    rcases List.mem_cons.mp hc with h1 | h2
    · subst h1
      exact mem_foldl_addTimeMatch xs (addTimeMatch acc m) (replaceDots m)
        (addTimeMatch_adds acc m h)
    · exact ih (addTimeMatch acc x) h2

/-- C3: the claim says every valid time-shaped match is normalized to the
canonical zero-padded "HH:MM" form. On the code a one-digit hour keeps its
width: the match "9.30" — a valid time — is emitted as "9:30", and "09:30" is
not in the resulting list. -/
theorem c3_counterexample :
    collectTimes ["9.30"] = ["9:30"] ∧ "09:30" ∉ collectTimes ["9.30"] := by
  decide

/-- C3 (amended): every time-shaped match whose value lies in [00:00, 23:59]
appears in the resulting times list normalized only by replacing '.' with ':'
(a one-digit hour keeps its matched width, so the form is not always
zero-padded "HH:MM"), and every string that is not a valid 24-hour clock time
is rejected: each produced entry passes the strict `strptime('%H:%M')`
validation, and in particular "25:61" never appears in any times list. -/
theorem c3_time_normalization (ms : List String) :
    (∀ s ∈ collectTimes ms, (parseHM s).isSome = true) ∧
    (∀ m ∈ ms, (parseHM (replaceDots m)).isSome = true →
      replaceDots m ∈ collectTimes ms) ∧
    "25:61" ∉ collectTimes ms := by
  refine ⟨collectTimes_all_valid ms, fun m hm h => collectTimes_mem ms m hm h, fun hc => ?_⟩
  have hv := collectTimes_all_valid ms "25:61" hc
  have hn : parseHM "25:61" = none := by decide
  rw [hn] at hv
  cases hv

/-! ## Listing-extractor theorems (claim C2) -/

theorem containerMovie_title_nonempty (el : Container) (m : Movie)
    (h : containerMovie el = some m) : m.title ≠ "" := by
  unfold containerMovie at h
  split at h
  · cases h
  · rename_i t _
    by_cases ht : t = ""
    · rw [if_pos ht] at h; cases h
    · rw [if_neg ht] at h
      cases h
      exact ht

theorem linkMovie_title_long (l : Link) (m : Movie) (h : linkMovie l = some m) :
    m.title ≠ "" ∧ m.title.length > 3 := by
  unfold linkMovie at h
  by_cases hc : l.text ≠ "" ∧ l.text.length > 3
  · rw [if_pos hc] at h
    cases h
    exact hc
  · rw [if_neg hc] at h
    cases h

/-- C2: the claim says every MovieSummary from the listing extractor has a
title of length strictly greater than 3. On the container path the length
threshold only controls early termination of the title probe: a container
whose only matching title sub-selector (the final `strong`) yields the
three-character text "Kit" still produces a record, with a title of length 3. -/
theorem c2_counterexample :
    extract_movie_data_from_schedule shortTitleDoc =
      [{ title := "Kit", url := none, times := [], countries := [], nearest := none }] ∧
    ¬ ("Kit".length > 3) := by
  decide

/-- C2 (amended): every MovieSummary produced by the listing extractor has a
non-empty trimmed title, and a container or link yielding no usable title is
skipped without producing a record; the length > 3 requirement is enforced on
the link-scanning fallback path, while on the container path it only stops the
title probe early, so a non-empty title of length at most 3 can be kept when
it is the last probe match. -/
theorem c2_extracted_titles (doc : ListingDoc) :
    (∀ m ∈ extract_movie_data_from_schedule doc, m.title ≠ "") ∧
    (firstHit doc.containerHits = none →
      ∀ m ∈ extract_movie_data_from_schedule doc, m.title.length > 3) := by
  constructor
  · intro m hm
    unfold extract_movie_data_from_schedule at hm
    cases hf : firstHit doc.containerHits with
    | some els =>
      rw [hf] at hm
      obtain ⟨el, _, hel⟩ := List.mem_filterMap.mp hm
      exact containerMovie_title_nonempty el m hel
    | none =>
      rw [hf] at hm
      obtain ⟨l, _, hl⟩ := List.mem_filterMap.mp hm
      exact (linkMovie_title_long l m hl).1
  · intro hf m hm
    unfold extract_movie_data_from_schedule at hm
    rw [hf] at hm
    obtain ⟨l, _, hl⟩ := List.mem_filterMap.mp hm
    exact (linkMovie_title_long l m hl).2

/-! ## Sorting lemmas for the `sortLt` model of Python `sorted` -/

theorem mem_insertLt {α : Type} (lt : α → α → Bool) (x a : α) (l : List α) :
    a ∈ insertLt lt x l ↔ a = x ∨ a ∈ l := by
  induction l with
  | nil => simp [insertLt]
  | cons y ys ih =>
    cases h : lt y x with
    | true =>
      simp only [insertLt, h, if_true, List.mem_cons, ih]
      tauto
    | false =>
      simp only [insertLt, h, Bool.false_eq_true, if_false, List.mem_cons]

theorem insertLt_perm {α : Type} (lt : α → α → Bool) (x : α) (l : List α) :
    List.Perm (insertLt lt x l) (x :: l) := by
  induction l with
  | nil => simp [insertLt]
  | cons y ys ih =>
    cases h : lt y x with
    | true =>
      simp only [insertLt, h, if_true]
      exact List.Perm.trans (List.Perm.cons y ih) (List.Perm.swap x y ys)
    | false =>
      simp [insertLt, h]

theorem sortLt_perm {α : Type} (lt : α → α → Bool) (l : List α) :
    List.Perm (sortLt lt l) l := by
  induction l with
  | nil => exact List.Perm.refl []
  | cons x xs ih =>
    exact List.Perm.trans (insertLt_perm lt x (sortLt lt xs)) (List.Perm.cons x ih)

theorem pairwise_insertLt {α : Type} (lt : α → α → Bool)
    (hasym : ∀ a b, lt a b = true → lt b a = false)
    (htrans : ∀ a b c, lt b a = false → lt c b = false → lt c a = false)
    (x : α) (l : List α) (hl : l.Pairwise (fun a b => lt b a = false)) :
    (insertLt lt x l).Pairwise (fun a b => lt b a = false) := by
  induction l with
  | nil => simp [insertLt]
  | cons y ys ih =>
    rcases List.pairwise_cons.mp hl with ⟨hy, hys⟩
    cases h : lt y x with
    | true =>
      simp only [insertLt, h, if_true]
      refine List.pairwise_cons.mpr ⟨?_, ih hys⟩
      intro b hb
      rcases (mem_insertLt lt x b ys).mp hb with rfl | hb2
      · exact hasym y b h
      · exact hy b hb2
    | false =>
      simp only [insertLt, h, Bool.false_eq_true, if_false]
      refine List.pairwise_cons.mpr ⟨?_, hl⟩
      intro b hb
      rcases List.mem_cons.mp hb with rfl | hb2
      · exact h
      · exact htrans x y b h (hy b hb2)

theorem pairwise_sortLt {α : Type} (lt : α → α → Bool)
    (hasym : ∀ a b, lt a b = true → lt b a = false)
    (htrans : ∀ a b c, lt b a = false → lt c b = false → lt c a = false)
    (l : List α) :
    (sortLt lt l).Pairwise (fun a b => lt b a = false) := by
  induction l with
  | nil => simp [sortLt]
  | cons x xs ih => exact pairwise_insertLt lt hasym htrans x (sortLt lt xs) ih

theorem sortLt_head?_min {α : Type} (lt : α → α → Bool)
    (hasym : ∀ a b, lt a b = true → lt b a = false)
    (htrans : ∀ a b c, lt b a = false → lt c b = false → lt c a = false)
    (hirr : ∀ a, lt a a = false)
    (l : List α) (r : α) (hr : (sortLt lt l).head? = some r) :
    ∀ x ∈ sortLt lt l, lt x r = false := by
  have hp := pairwise_sortLt lt hasym htrans l
  intro x hx
  cases hsl : sortLt lt l with
  | nil => rw [hsl] at hx; cases hx
  | cons h t =>
    rw [hsl] at hr hp hx
    rw [List.head?_cons, Option.some.injEq] at hr
    subst hr
    rcases List.mem_cons.mp hx with rfl | hx2
    · exact hirr x
    · exact (List.pairwise_cons.mp hp).1 x hx2

/-! ## The character-list lexicographic order is a strict total order -/

theorem lexLt_irrefl (l : List Char) : lexLt l l = false := by
  induction l with
  | nil => rfl
  | cons c cs ih => simp [lexLt, ih]

theorem lexLt_cons_iff (a b : Char) (as bs : List Char) :
    lexLt (a :: as) (b :: bs) = true ↔ a < b ∨ (a = b ∧ lexLt as bs = true) := by
  simp only [lexLt]
  by_cases h1 : a < b
  · simp [h1]
  · by_cases h2 : b < a
    · have hne : a ≠ b := fun heq => absurd h2 (by rw [heq]; exact lt_irrefl b)
      simp [h1, h2, hne]
    · have heq : a = b := le_antisymm (not_lt.mp h2) (not_lt.mp h1)
      simp [h1, h2, heq]

theorem lexLt_trans (a : List Char) : ∀ b c : List Char,
    lexLt a b = true → lexLt b c = true → lexLt a c = true := by
  induction a with
  | nil =>
    intro b c h1 h2
    cases b with
    | nil => simp [lexLt] at h1
    | cons y ys =>
      cases c with
      | nil => simp [lexLt] at h2
      | cons z zs => rfl
  | cons x xs ih =>
    intro b c h1 h2
    cases b with
    | nil => simp [lexLt] at h1
    | cons y ys =>
      cases c with
      | nil => simp [lexLt] at h2
      | cons z zs =>
        rw [lexLt_cons_iff] at h1 h2 ⊢
        rcases h1 with hxy | ⟨rfl, h1'⟩
        · rcases h2 with hyz | ⟨rfl, h2'⟩
          · exact Or.inl (lt_trans hxy hyz)
          · exact Or.inl hxy
        · rcases h2 with hyz | ⟨rfl, h2'⟩
          · exact Or.inl hyz
          · exact Or.inr ⟨rfl, ih ys zs h1' h2'⟩

theorem lexLt_conn (a : List Char) : ∀ b : List Char, a ≠ b →
    lexLt a b = true ∨ lexLt b a = true := by
  induction a with
  | nil =>
    intro b hne
    cases b with
    | nil => exact absurd rfl hne
    | cons y ys => exact Or.inl rfl
  | cons x xs ih =>
    intro b hne
    cases b with
    | nil => exact Or.inr rfl
    | cons y ys =>
      rcases lt_trichotomy x y with h | h | h
      · exact Or.inl ((lexLt_cons_iff x y xs ys).mpr (Or.inl h))
      · subst h
        have hne2 : xs ≠ ys := fun hh => hne (by rw [hh])
        rcases ih ys hne2 with h' | h'
        · exact Or.inl ((lexLt_cons_iff x x xs ys).mpr (Or.inr ⟨rfl, h'⟩))
        · exact Or.inr ((lexLt_cons_iff x x ys xs).mpr (Or.inr ⟨rfl, h'⟩))
      · exact Or.inr ((lexLt_cons_iff y x ys xs).mpr (Or.inl h))

theorem lexLt_asym (a b : List Char) (h : lexLt a b = true) : lexLt b a = false := by
  cases hv : lexLt b a with
  | false => rfl
  | true =>
    have := lexLt_trans a b a h hv
    rw [lexLt_irrefl] at this
    cases this

theorem lexLt_compl_trans (a b c : List Char) (h1 : lexLt b a = false)
    (h2 : lexLt c b = false) : lexLt c a = false := by
  cases hv : lexLt c a with
  | false => rfl
  | true =>
    exfalso
    by_cases hab : a = b
    · subst hab
      rw [hv] at h2
      cases h2
    · rcases lexLt_conn a b hab with h' | h'
      · have := lexLt_trans c a b hv h'
        rw [h2] at this
        cases this
      · rw [h1] at h'
        cases h'

theorem strLt_asym (a b : String) (h : strLt a b = true) : strLt b a = false :=
  lexLt_asym a.data b.data h

theorem strLt_compl_trans (a b c : String) (h1 : strLt b a = false)
    (h2 : strLt c b = false) : strLt c a = false :=
  lexLt_compl_trans a.data b.data c.data h1 h2

theorem strLt_irrefl (a : String) : strLt a a = false := lexLt_irrefl a.data

theorem natblt_false_iff (a b : Nat) : Nat.blt a b = false ↔ ¬ a < b := by
  rw [← Bool.not_eq_true, Nat.blt_eq]

theorem natblt_asym (a b : Nat) (h : Nat.blt a b = true) : Nat.blt b a = false := by
  rw [Nat.blt_eq] at h
  rw [natblt_false_iff]
  omega

theorem natblt_compl_trans (a b c : Nat) (h1 : Nat.blt b a = false)
    (h2 : Nat.blt c b = false) : Nat.blt c a = false := by
  rw [natblt_false_iff] at h1 h2 ⊢
  omega

theorem natblt_irrefl (a : Nat) : Nat.blt a a = false := by
  rw [natblt_false_iff]
  omega

/-! ## Calendar-widget theorems (claim C9) -/

/-- C9: for every detail document, the nearest-show-date extraction returns
`none` when no calendar widget was found; with a widget, it constructs at most
one calendar date per active date link (skipping every link whose day text is
missing, non-numeric, or makes the `date` construction fail), returns `none`
when no valid date was constructed, and otherwise returns the minimum of the
valid constructed dates: the result is itself one of the constructed dates and
is at most every one of them. -/
theorem c9_nearest_show_date (nowY nowM : Nat) (links : List DateLink) :
    parse_schedule_calendar nowY nowM none = none ∧
    (links.filterMap (linkDate nowY nowM) = [] →
      parse_schedule_calendar nowY nowM (some links) = none) ∧
    (∀ d ∈ links.filterMap (linkDate nowY nowM),
      ∃ r, parse_schedule_calendar nowY nowM (some links) = some r ∧
        r ∈ links.filterMap (linkDate nowY nowM) ∧
        ∀ x ∈ links.filterMap (linkDate nowY nowM), r ≤ x) := by
  refine ⟨rfl, ?_, ?_⟩
  · intro h
    show (sortLt Nat.blt (links.filterMap (linkDate nowY nowM))).head? = none
    rw [h]
    rfl
  · intro d hd
    have hperm := sortLt_perm Nat.blt (links.filterMap (linkDate nowY nowM))
    cases hsl : sortLt Nat.blt (links.filterMap (linkDate nowY nowM)) with
    | nil =>
      rw [hsl] at hperm
      rw [← List.Perm.mem_iff hperm] at hd
      cases hd
    | cons r t =>
      refine ⟨r, ?_, ?_, ?_⟩
      · show (sortLt Nat.blt (links.filterMap (linkDate nowY nowM))).head? = some r
        rw [hsl]
        rfl
      · rw [← List.Perm.mem_iff hperm, hsl]
        exact List.mem_cons_self r t
      · intro x hx
        have hx2 : x ∈ sortLt Nat.blt (links.filterMap (linkDate nowY nowM)) := by
          rw [← List.Perm.mem_iff hperm] at hx
          exact hx
        have hmin := sortLt_head?_min Nat.blt natblt_asym natblt_compl_trans natblt_irrefl
          (links.filterMap (linkDate nowY nowM)) r (by rw [hsl]; rfl) x hx2
        rw [natblt_false_iff] at hmin
        omega

/-! ## Detail-times merge theorems (claim C10) -/

/-- C10: whenever detail enrichment returns at least one extra showtime, the
movie's times list becomes the duplicate-free union of the listing times and
the detail times, enumerated ascending by Python string comparison
(lexicographic by code point): the resulting list holds exactly the union's
elements without duplicates, is lexicographically sorted, and its first
element is the lexicographically smallest — so "10:00" precedes "9:30" rather
than the first-encountered showtime coming first. -/
theorem c10_detail_times_sorted (enrich : String → List String × Option Nat × List String)
    (m : Movie) (u : String) (hu : m.url = some u) (hne : (enrich u).2.2 ≠ []) :
    (∀ s, s ∈ (processMovie false enrich m).times ↔
      (s ∈ m.times ∨ s ∈ (enrich u).2.2)) ∧
    (processMovie false enrich m).times.Nodup ∧
    (processMovie false enrich m).times.Pairwise (fun a b => strLt b a = false) ∧
    (∀ r, ((processMovie false enrich m).times).head? = some r →
      ∀ s ∈ (processMovie false enrich m).times, strLt s r = false) := by
  have ht : (processMovie false enrich m).times =
      sortLt strLt ((m.times ++ (enrich u).2.2).dedup) := by
    simp [processMovie, hu, hne, mergeDetailTimes]
  have hperm := sortLt_perm strLt ((m.times ++ (enrich u).2.2).dedup)
  refine ⟨?_, ?_, ?_, ?_⟩
  · intro s
    rw [ht, List.Perm.mem_iff hperm, List.mem_dedup, List.mem_append]
  · rw [ht, List.Perm.nodup_iff hperm]
    exact List.nodup_dedup _
  · rw [ht]
    exact pairwise_sortLt strLt strLt_asym strLt_compl_trans _
  · intro r hr s hs
    rw [ht] at hr hs
    exact sortLt_head?_min strLt strLt_asym strLt_compl_trans strLt_irrefl _ r hr s hs

/-- C10 witness: with listing times `["9:30"]` and detail times `["10:00"]`
the merged list is `["10:00", "9:30"]`: the union, duplicate-free, with the
lexicographically smallest string first. -/
theorem c10_witness :
    (processMovie false enrichTen movieNineThirty).times = ["10:00", "9:30"] ∧
    "10:00" ∈ (processMovie false enrichTen movieNineThirty).times ∧
    "9:30" ∈ (processMovie false enrichTen movieNineThirty).times ∧
    (processMovie false enrichTen movieNineThirty).times.Nodup := by
  have h := c10_detail_times_sorted enrichTen movieNineThirty "detail-url" rfl (by decide)
  refine ⟨by decide, ?_, ?_, h.2.1⟩
  · exact (h.1 "10:00").mpr (Or.inr (by decide))
  · exact (h.1 "9:30").mpr (Or.inl (by decide))

/-! ## Deduplicating merge lemmas (claims C6, C7) -/

theorem dedupF_append_single (l : List Movie) (m : Movie) :
    dedupF (l ++ [m]) = insertNew (dedupF l) m := by
  rw [dedupF, dedupF, List.foldl_append]
  rfl

theorem mergePage_dedupF (s p : List Movie) :
    mergePage (dedupF s) p = dedupF (s ++ p) := by
  rw [dedupF, dedupF, List.foldl_append]
  rfl

theorem insertNew_any_true (acc : List Movie) (m : Movie)
    (h : acc.any (fun x => x.title == m.title) = true) : insertNew acc m = acc := by
  rw [insertNew, if_pos h]

theorem insertNew_any_false (acc : List Movie) (m : Movie)
    (h : acc.any (fun x => x.title == m.title) = false) :
    insertNew acc m = acc ++ [m] := by
  rw [insertNew, if_neg (by rw [h]; exact Bool.false_ne_true)]

theorem any_title_iff (acc : List Movie) (t : String) :
    acc.any (fun x => x.title == t) = true ↔ ∃ x ∈ acc, x.title = t := by
  rw [List.any_eq_true]
  constructor
  · rintro ⟨x, hx, he⟩
    exact ⟨x, hx, by rwa [beq_iff_eq] at he⟩
  · rintro ⟨x, hx, he⟩
    exact ⟨x, hx, by rwa [beq_iff_eq]⟩

theorem dedupF_titles (l : List Movie) (t : String) :
    (∃ m ∈ dedupF l, m.title = t) ↔ ∃ m ∈ l, m.title = t := by
  induction l using List.reverseRecOn with
  | nil => simp [dedupF]
  | append_singleton l m ih =>
    rw [dedupF_append_single]
    cases hany : (dedupF l).any (fun x => x.title == m.title) with
    | true =>
      rw [insertNew_any_true _ _ hany]
      simp only [List.mem_append, List.mem_singleton]
      constructor
      · rintro ⟨x, hx, he⟩
        obtain ⟨y, hy, hye⟩ := ih.mp ⟨x, hx, he⟩
        exact ⟨y, Or.inl hy, hye⟩
      · rintro ⟨x, hx | hx, he⟩
        · exact ih.mpr ⟨x, hx, he⟩
        · subst hx
          obtain ⟨y, hy, hye⟩ := (any_title_iff _ _).mp hany
          exact ⟨y, hy, by rw [hye, he]⟩
    | false =>
      rw [insertNew_any_false _ _ hany]
      simp only [List.mem_append, List.mem_singleton]
      constructor
      · rintro ⟨x, hx | hx, he⟩
        · obtain ⟨y, hy, hye⟩ := ih.mp ⟨x, hx, he⟩
          exact ⟨y, Or.inl hy, hye⟩
        · exact ⟨x, Or.inr hx, he⟩
      · rintro ⟨x, hx | hx, he⟩
        · obtain ⟨y, hy, hye⟩ := ih.mpr ⟨x, hx, he⟩
          exact ⟨y, Or.inl hy, hye⟩
        · exact ⟨x, Or.inr hx, he⟩

theorem dedupF_nodup (l : List Movie) : ((dedupF l).map Movie.title).Nodup := by
  induction l using List.reverseRecOn with
  | nil => simp [dedupF]
  | append_singleton l m ih =>
    rw [dedupF_append_single]
    cases hany : (dedupF l).any (fun x => x.title == m.title) with
    | true => rw [insertNew_any_true _ _ hany]; exact ih
    | false =>
      rw [insertNew_any_false _ _ hany, List.map_append]
      rw [List.nodup_append]
      refine ⟨ih, List.nodup_singleton _, ?_⟩
      intro a ha hb
      simp only [List.map_cons, List.map_nil, List.mem_singleton] at hb
      subst hb
      obtain ⟨x, hx, hxe⟩ := List.mem_map.mp ha
      have : (dedupF l).any (fun x => x.title == m.title) = true :=
        (any_title_iff _ _).mpr ⟨x, hx, hxe⟩
      rw [hany] at this
      cases this

theorem dedupF_first_occurrence (l : List Movie) :
    ∀ m ∈ dedupF l, l.find? (fun x => x.title == m.title) = some m := by
  induction l using List.reverseRecOn with
  | nil => simp [dedupF]
  | append_singleton l m ih =>
    rw [dedupF_append_single]
    cases hany : (dedupF l).any (fun x => x.title == m.title) with
    | true =>
      rw [insertNew_any_true _ _ hany]
      intro x hx
      rw [List.find?_append, ih x hx]
      rfl
    | false =>
      rw [insertNew_any_false _ _ hany]
      intro x hx
      rcases List.mem_append.mp hx with hx2 | hx2
      · rw [List.find?_append, ih x hx2]
        rfl
      · rw [List.mem_singleton] at hx2
        subst hx2
        have hnone : l.find? (fun y => y.title == x.title) = none := by
          rw [List.find?_eq_none]
          intro y hy hbe
          rw [beq_iff_eq] at hbe
          have hex : ∃ z ∈ dedupF l, z.title = x.title :=
            (dedupF_titles l x.title).mpr ⟨y, hy, hbe⟩
          have : (dedupF l).any (fun z => z.title == x.title) = true :=
            (any_title_iff _ _).mpr hex
          rw [hany] at this
          cases this
        rw [List.find?_append, hnone]
        simp [List.find?]

theorem dedupF_sublist (l : List Movie) : (dedupF l).Sublist l := by
  induction l using List.reverseRecOn with
  | nil => simp [dedupF]
  | append_singleton l m ih =>
    rw [dedupF_append_single]
    cases hany : (dedupF l).any (fun x => x.title == m.title) with
    | true =>
      rw [insertNew_any_true _ _ hany]
      exact ih.trans (List.sublist_append_left l [m])
    | false =>
      rw [insertNew_any_false _ _ hany]
      exact List.Sublist.append ih (List.Sublist.refl [m])

theorem collectLoop_none (pages : Nat → Option (List Movie)) (probe : Nat → Bool)
    (maxPages : Nat) : ∀ (fuel cp : Nat) (s : List Movie),
    ∃ f, collectLoop pages probe none maxPages fuel cp (dedupF s) =
      ⟨dedupF (s ++ fetchedExtracts pages f), f⟩ := by
  intro fuel
  induction fuel with
  | zero =>
    intro cp s
    refine ⟨[], ?_⟩
    simp [collectLoop, fetchedExtracts]
  | succ k ih =>
    intro cp s
    cases hp : pages cp with
    | none =>
      refine ⟨[cp], ?_⟩
      simp [collectLoop, hp, fetchedExtracts]
    | some pm =>
      cases pm with
      | nil =>
        refine ⟨[cp], ?_⟩
        simp [collectLoop, hp, fetchedExtracts]
      | cons m rest =>
        by_cases hstop : cp < maxPages ∧ probe cp = false
        · refine ⟨[cp], ?_⟩
          simp only [collectLoop, hp, truncCond, Bool.false_eq_true, if_false,
            if_pos hstop, mergePage_dedupF]
          simp [fetchedExtracts, hp]
        · obtain ⟨f2, hf2⟩ := ih (cp + 1) (s ++ (m :: rest))
          refine ⟨cp :: f2, ?_⟩
          simp only [collectLoop, hp, truncCond, Bool.false_eq_true, if_false,
            if_neg hstop, mergePage_dedupF, hf2]
          simp [fetchedExtracts, hp, List.append_assoc]

/-- C6: for any sequence of pages, the merged RunCollection contains each
distinct extracted title exactly once: its title list has no duplicates, a
title appears in the collection exactly when some extracted movie carried it,
the record kept for each title is the first record with that title in the
extraction stream (so later duplicates never replace earlier data), and the
collection is a sublist of the extraction stream (first-seen order across
pages). -/
theorem c6_merge_dedup (pages : Nat → Option (List Movie)) (probe : Nat → Bool)
    (maxPages : Nat) :
    ((parse_all_schedule_pages pages probe none maxPages).movies.map Movie.title).Nodup ∧
    (∀ t : String,
      (∃ m ∈ fetchedExtracts pages (parse_all_schedule_pages pages probe none maxPages).fetched,
        m.title = t) ↔
      ∃ m ∈ (parse_all_schedule_pages pages probe none maxPages).movies, m.title = t) ∧
    (∀ m ∈ (parse_all_schedule_pages pages probe none maxPages).movies,
      (fetchedExtracts pages
        (parse_all_schedule_pages pages probe none maxPages).fetched).find?
        (fun x => x.title == m.title) = some m) ∧
    (parse_all_schedule_pages pages probe none maxPages).movies.Sublist
      (fetchedExtracts pages (parse_all_schedule_pages pages probe none maxPages).fetched) := by
  obtain ⟨f, hf⟩ := collectLoop_none pages probe maxPages maxPages 1 []
  have hr : parse_all_schedule_pages pages probe none maxPages =
      ⟨dedupF ([] ++ fetchedExtracts pages f), f⟩ := hf
  rw [hr]
  simp only [List.nil_append]
  exact ⟨dedupF_nodup _, fun t => (dedupF_titles _ t).symm, dedupF_first_occurrence _,
    dedupF_sublist _⟩

theorem fetchedExtracts_nil (pages : Nat → Option (List Movie)) :
    fetchedExtracts pages [] = [] := rfl

theorem fetchedExtracts_cons (pages : Nat → Option (List Movie)) (c : Nat) (f : List Nat) :
    fetchedExtracts pages (c :: f) = ((pages c).getD []) ++ fetchedExtracts pages f := by
  simp [fetchedExtracts]

theorem collectLoop_cap (pages : Nat → Option (List Movie)) (probe : Nat → Bool)
    (maxPages mm : Nat) (hmm : mm ≠ 0) : ∀ (fuel cp : Nat) (s : List Movie),
    (dedupF s).length < mm →
    ∃ f, collectLoop pages probe (some mm) maxPages fuel cp (dedupF s) =
        ⟨(dedupF (s ++ fetchedExtracts pages f)).take mm, f⟩ ∧
      f = List.range' cp f.length ∧
      (∀ j, j + 1 < f.length →
        (dedupF (s ++ fetchedExtracts pages (List.range' cp (j + 1)))).length < mm) := by
  intro fuel
  induction fuel with
  | zero =>
    intro cp s hs
    refine ⟨[], ?_, rfl, by intro j hj; rw [List.length_nil] at hj; omega⟩
    simp [collectLoop, fetchedExtracts_nil, List.take_of_length_le (le_of_lt hs)]
  | succ k ih =>
    intro cp s hs
    cases hp : pages cp with
    | none =>
      refine ⟨[cp], ?_, by simp, by intro j hj; rw [List.length_cons, List.length_nil] at hj; omega⟩
      simp [collectLoop, hp, fetchedExtracts_cons, fetchedExtracts_nil,
        List.take_of_length_le (le_of_lt hs)]
    | some pm =>
      cases pm with
      | nil =>
        refine ⟨[cp], ?_, by simp, by intro j hj; rw [List.length_cons, List.length_nil] at hj; omega⟩
        simp [collectLoop, hp, fetchedExtracts_cons, fetchedExtracts_nil,
          List.take_of_length_le (le_of_lt hs)]
      | cons m rest =>
        have hmacc : mergePage (dedupF s) (m :: rest) = dedupF (s ++ (m :: rest)) :=
          mergePage_dedupF s (m :: rest)
        cases htr : truncCond (some mm) (mergePage (dedupF s) (m :: rest)).length with
        | true =>
          refine ⟨[cp], ?_, by simp, by intro j hj; rw [List.length_cons, List.length_nil] at hj; omega⟩
          simp only [collectLoop, hp, htr, if_true, Option.getD_some]
          rw [hmacc, fetchedExtracts_cons, fetchedExtracts_nil, hp]
          simp
        | false =>
          have hlen : (dedupF (s ++ (m :: rest))).length < mm := by
            rw [← hmacc]
            simp only [truncCond, Bool.and_eq_false_iff, bne_eq_false_iff_eq,
              decide_eq_false_iff_not, Nat.not_le] at htr
            rcases htr with h0 | h1
            · exact absurd h0 hmm
            · exact h1
          by_cases hstop : cp < maxPages ∧ probe cp = false
          · refine ⟨[cp], ?_, by simp, by intro j hj; rw [List.length_cons, List.length_nil] at hj; omega⟩
            simp only [collectLoop, hp, htr, Bool.false_eq_true, if_false, if_pos hstop]
            rw [hmacc, fetchedExtracts_cons, fetchedExtracts_nil, hp]
            simp [List.take_of_length_le (le_of_lt hlen)]
          · obtain ⟨f2, hf2, hf2r, hf2inv⟩ := ih (cp + 1) (s ++ (m :: rest)) hlen
            have htr2 : truncCond (some mm) (dedupF (s ++ (m :: rest))).length = false := by
              rw [← hmacc]; exact htr
            refine ⟨cp :: f2, ?_, ?_, ?_⟩
            · simp only [collectLoop, hp, hmacc, htr2, Bool.false_eq_true, if_false,
                if_neg hstop, hf2]
              rw [fetchedExtracts_cons, hp]
              simp [List.append_assoc]
            · rw [List.length_cons, List.range'_succ]
              rw [← hf2r]
            · intro j hj
              cases j with
              | zero =>
                rw [List.range'_one, fetchedExtracts_cons, fetchedExtracts_nil, hp]
                simpa using hlen
              | succ i =>
                rw [List.length_cons] at hj
                have hstep := hf2inv i (by omega)
                rw [List.range'_succ, fetchedExtracts_cons, hp]
                rw [← List.append_assoc]
                simpa using hstep

/-- C7: the claim quantifies over every set `maxItems`. With `maxItems = 0`
(set, and reached immediately since every collection has length at least 0)
the Python truthiness test `if MAX_MOVIES and ...` skips the cap entirely: on
two one-movie pages the controller keeps fetching and ends with 2 entries and
both pages fetched, instead of truncating to exactly 0 entries and stopping. -/
theorem c7_counterexample :
    (parse_all_schedule_pages twoPages (fun _ => true) (some 0) 2).movies.length = 2 ∧
    (parse_all_schedule_pages twoPages (fun _ => true) (some 0) 2).fetched = [1, 2] := by
  decide

/-- C7 (amended): when maxItems is set to a positive value, the pagination
controller keeps the collection within maxItems; the pages fetched are the
consecutive pages from 1; the final collection is the first maxItems entries,
in discovery order, of the deduplicated extraction stream of the fetched
pages; and every fetched page except the last was fetched while the merged
collection was still below maxItems — so once the collection reaches or
exceeds maxItems after merging a page, it is truncated to exactly maxItems
and no further page is fetched. -/
theorem c7_cap_truncation (pages : Nat → Option (List Movie)) (probe : Nat → Bool)
    (maxPages mm : Nat) :
    (parse_all_schedule_pages pages probe (some (mm + 1)) maxPages).movies.length ≤ mm + 1 ∧
    (parse_all_schedule_pages pages probe (some (mm + 1)) maxPages).fetched =
      List.range' 1
        (parse_all_schedule_pages pages probe (some (mm + 1)) maxPages).fetched.length ∧
    (parse_all_schedule_pages pages probe (some (mm + 1)) maxPages).movies =
      (dedupF (fetchedExtracts pages
        (parse_all_schedule_pages pages probe (some (mm + 1)) maxPages).fetched)).take
        (mm + 1) ∧
    (∀ j, j + 1 <
        (parse_all_schedule_pages pages probe (some (mm + 1)) maxPages).fetched.length →
      (dedupF (fetchedExtracts pages (List.range' 1 (j + 1)))).length < mm + 1) := by
  obtain ⟨f, hf, hfr, hfinv⟩ := collectLoop_cap pages probe maxPages (mm + 1)
    (Nat.succ_ne_zero mm) maxPages 1 [] (by simp [dedupF])
  have hr : parse_all_schedule_pages pages probe (some (mm + 1)) maxPages =
      ⟨(dedupF ([] ++ fetchedExtracts pages f)).take (mm + 1), f⟩ := hf
  rw [hr]
  refine ⟨?_, hfr, ?_, ?_⟩
  · show (List.take (mm + 1) (dedupF ([] ++ fetchedExtracts pages f))).length ≤ mm + 1
    rw [List.length_take]
    exact min_le_left _ _
  · show List.take (mm + 1) (dedupF ([] ++ fetchedExtracts pages f)) =
      List.take (mm + 1) (dedupF (fetchedExtracts pages f))
    rw [List.nil_append]
  · intro j hj
    have h2 := hfinv j hj
    rw [List.nil_append] at h2
    exact h2

/-- The cap example of the claim amended only in the zero case: with
`maxItems = 5` and eight unique titles across two pages, the final collection
is exactly the first five titles in discovery order, and no page beyond page 2
is fetched. -/
theorem c7_example_five_of_eight :
    (parse_all_schedule_pages capPages (fun _ => true) (some 5) 10).movies.map Movie.title =
      ["Movie One", "Movie Two", "Movie Three", "Movie Four", "Movie Five"] ∧
    (parse_all_schedule_pages capPages (fun _ => true) (some 5) 10).fetched = [1, 2] := by
  decide

/-! ## Event-materializer and orchestrator theorems (claims C8, C5) -/

/-- C8: every MovieSummary with no nearest show date and an empty times list
whose countries do not intersect the exclusion set materializes to an event
beginning tomorrow (the day after `today`) at 19:00, with the end exactly two
hours after the begin; and for every produced event, unconditionally, the end
is the begin plus exactly two hours. -/
theorem c8_fallback_date_and_duration (excl : List String) (today : Nat) (m : Movie)
    (h1 : m.nearest = none) (h2 : m.times = [])
    (h3 : m.countries.any (fun c => excl.contains c) = false) :
    create_calendar_event excl today m =
      some { name := m.title, beginT := (today + 1) * 1440 + 19 * 60,
             endT := (today + 1) * 1440 + 19 * 60 + 120, url := m.url } ∧
    (∀ (excl2 : List String) (today2 : Nat) (m2 : Movie) (e : Event),
      create_calendar_event excl2 today2 m2 = some e → e.endT = e.beginT + 120) := by
  constructor
  · rw [create_calendar_event, if_neg (by rw [h3]; exact Bool.false_ne_true), h1, h2]
  · intro excl2 today2 m2 e he
    rw [create_calendar_event] at he
    by_cases hc : m2.countries.any (fun c => excl2.contains c) = true
    · rw [if_pos hc] at he
      cases he
    · rw [if_neg hc] at he
      cases he
      rfl

/-- C8 witness: the concrete movie `fallbackMovie` (no nearest date, no
times, country "США") with exclusion list ["Россия"] and `today = 20000`
materializes to the event at day 20001, 19:00, lasting two hours. -/
theorem c8_witness :
    create_calendar_event ["Россия"] 20000 fallbackMovie =
      some { name := fallbackMovie.title, beginT := (20000 + 1) * 1440 + 19 * 60,
             endT := (20000 + 1) * 1440 + 19 * 60 + 120, url := fallbackMovie.url } :=
  (c8_fallback_date_and_duration ["Россия"] 20000 fallbackMovie rfl rfl (by decide)).1

/-- C5: when the collection phase yields zero movies the run still writes a
calendar artifact containing exactly one placeholder event, and when a
run-level exception is raised the run writes an artifact with exactly one
placeholder error event and re-surfaces the failure; in both cases the
placeholder begins at `now + 1 day`, whose day is the day after the current
one, so the artifact is never missing or empty. -/
theorem c5_placeholder_artifact (now : Nat) (sd : Bool) (excl : List String)
    (enrich : String → List String × Option Nat × List String) :
    mainRun now sd excl enrich (Except.ok []) =
      ⟨[{ name := "Фильмы не найдены", beginT := now + 1440, endT := now + 1440 + 120,
          url := none }], false⟩ ∧
    mainRun now sd excl enrich (Except.error ()) =
      ⟨[{ name := "Ошибка парсинга", beginT := now + 1440, endT := now + 1440 + 120,
          url := none }], true⟩ ∧
    (now + 1440) / 1440 = now / 1440 + 1 := by
  refine ⟨rfl, rfl, ?_⟩
  exact Nat.add_div_right now (by norm_num)

end Afisha
